import Mathlib

/-!
Verification of the EngineUtilities numeric-primitive library (vectors,
matrices, quaternions and the hand-rolled scalar math functions).

The C++ code is shallowly embedded over exact rationals: every `float`
value is modelled as a `ℚ`, float literals become the exact rationals they
are written as, and each loop with a data-independent bound becomes a
fixed iteration of its body.  The `while`-loop range reduction of
`sin`/`cos` is modelled by well-founded recursion, together with an
explicit iteration-count function.
-/

set_option maxHeartbeats 1000000

namespace EU

namespace Math

/-- One Newton-Raphson step `guess = 0.5f * (guess + x / guess)` from the
body of the `for` loop inside `EU::Math::sqrt` (EngineMath.h). -/
def newtonStep (x g : ℚ) : ℚ := 0.5 * (g + x / g)

/-- `EU::Math::sqrt` (EngineMath.h): returns 0 for `x <= 0`, otherwise runs
exactly 10 Newton-Raphson iterations starting from `x / 2`. -/
def sqrt (x : ℚ) : ℚ :=
  if x ≤ 0 then 0 else (newtonStep x)^[10] (x / 2)

/-- `EU::Math::power` (EngineMath.h): `result = 1; for (int i = 0; i < n; ++i)
result *= x;` — the loop body runs `max n 0` times. -/
def power (x : ℚ) (n : ℤ) : ℚ :=
  (fun r => r * x)^[n.toNat] 1

/-- `EU::Math::log` (EngineMath.h): returns 0 for `x <= 0`, otherwise the
9-term odd series in `y = (x-1)/(x+1)` (loop `i = 1, 3, 5, 7, 9`), doubled. -/
def log (x : ℚ) : ℚ :=
  if x ≤ 0 then 0
  else
    let y := (x - 1) / (x + 1)
    let result := 1 / 1 * power y 1 + 1 / 3 * power y 3 + 1 / 5 * power y 5
      + 1 / 7 * power y 7 + 1 / 9 * power y 9
    2 * result

/-- The float literal `3.14159265f` used by the range reduction in
`EU::Math::sin` and `EU::Math::cos` (EngineMath.h), as an exact rational. -/
def piLit : ℚ := 3.14159265

/-- The first range-reduction loop of `EU::Math::sin`/`cos`:
`while (x > 3.14159265f) x -= 2.0f * 3.14159265f;`. -/
def reduceDown (x : ℚ) : ℚ :=
  if piLit < x then reduceDown (x - 2 * piLit) else x
termination_by (⌈(x - piLit) / (2 * piLit)⌉).toNat
decreasing_by
  have hp : (0 : ℚ) < 2 * piLit := by norm_num [piLit]
  have h1 : (x - 2 * piLit - piLit) / (2 * piLit)
      = (x - piLit) / (2 * piLit) - 1 := by field_simp; ring
  rw [h1, Int.ceil_sub_one]
  have h2 : 0 < ⌈(x - piLit) / (2 * piLit)⌉ :=
    Int.ceil_pos.mpr (div_pos (by linarith) hp)
  omega

/-- The second range-reduction loop of `EU::Math::sin`/`cos`:
`while (x < -3.14159265f) x += 2.0f * 3.14159265f;`. -/
def reduceUp (x : ℚ) : ℚ :=
  if x < -piLit then reduceUp (x + 2 * piLit) else x
termination_by (⌈(-piLit - x) / (2 * piLit)⌉).toNat
decreasing_by
  have hp : (0 : ℚ) < 2 * piLit := by norm_num [piLit]
  have h1 : (-piLit - (x + 2 * piLit)) / (2 * piLit)
      = (-piLit - x) / (2 * piLit) - 1 := by field_simp; ring
  rw [h1, Int.ceil_sub_one]
  have h2 : 0 < ⌈(-piLit - x) / (2 * piLit)⌉ :=
    Int.ceil_pos.mpr (div_pos (by linarith) hp)
  omega

/-- Number of times the body of the first range-reduction loop of
`EU::Math::sin`/`cos` executes on input `x` (same recursion structure as
`reduceDown`). -/
def reduceDownSteps (x : ℚ) : ℕ :=
  if piLit < x then reduceDownSteps (x - 2 * piLit) + 1 else 0
termination_by (⌈(x - piLit) / (2 * piLit)⌉).toNat
decreasing_by
  have hp : (0 : ℚ) < 2 * piLit := by norm_num [piLit]
  have h1 : (x - 2 * piLit - piLit) / (2 * piLit)
      = (x - piLit) / (2 * piLit) - 1 := by field_simp; ring
  rw [h1, Int.ceil_sub_one]
  have h2 : 0 < ⌈(x - piLit) / (2 * piLit)⌉ :=
    Int.ceil_pos.mpr (div_pos (by linarith) hp)
  omega

/-- Both range-reduction loops of `EU::Math::sin`/`cos`, in source order. -/
def reduceAngle (x : ℚ) : ℚ := reduceUp (reduceDown x)

/-- `EU::Math::sin` (EngineMath.h): range reduction followed by the
4-term Taylor polynomial. -/
def sin (x : ℚ) : ℚ :=
  let xr := reduceAngle x
  let x2 := xr * xr
  xr - (x2 * xr) / 6 + (x2 * x2 * xr) / 120 - (x2 * x2 * x2 * xr) / 5040

/-- `EU::Math::cos` (EngineMath.h): range reduction followed by the
4-term Taylor polynomial. -/
def cos (x : ℚ) : ℚ :=
  let xr := reduceAngle x
  let x2 := xr * xr
  1 - x2 / 2 + (x2 * x2) / 24 - (x2 * x2 * x2) / 720

end Math

end EU

/-- `CVector3` (Vector4.h, top-level class): a 3D float vector. -/
@[ext]
structure CVector3 where
  x : ℚ
  y : ℚ
  z : ℚ
deriving DecidableEq

namespace CVector3

/-- `CVector3::length` (Vector4.h): `EU::Math::sqrt(x*x + y*y + z*z)`. -/
def length (v : CVector3) : ℚ :=
  EU.Math.sqrt (v.x * v.x + v.y * v.y + v.z * v.z)

/-- `CVector3::lengthSquared` (Vector4.h). -/
def lengthSquared (v : CVector3) : ℚ :=
  v.x * v.x + v.y * v.y + v.z * v.z

/-- `CVector3::normalized` (Vector4.h): returns `(0,0,0)` when `length()`
is exactly 0, otherwise divides each component by the length. -/
def normalized (v : CVector3) : CVector3 :=
  let len := v.length
  if len = 0 then ⟨0, 0, 0⟩ else ⟨v.x / len, v.y / len, v.z / len⟩

end CVector3

/-- Modelled from the spec: the two-component vector `CVector2` declared in
`Vectors/Vector2.h`, a header not present in the sources; its shape (plain
`x`,`y` float fields and an `(x, y)` constructor) is fixed by its uses in
`EU::Matrix2x2`, `EU::Matrix3x3` and the demo program. -/
@[ext]
structure CVector2 where
  x : ℚ
  y : ℚ
deriving DecidableEq

namespace EU

/-- `EU::Quaternion` (Rotations/Quaternion.h): four float components,
`w` the real part. -/
@[ext]
structure Quaternion where
  x : ℚ
  y : ℚ
  z : ℚ
  w : ℚ
deriving DecidableEq

namespace Quaternion

/-- `EU::Quaternion::identity` and the default constructor: `(0,0,0,1)`. -/
def identity : Quaternion := ⟨0, 0, 0, 1⟩

/-- `EU::Quaternion::length`: `Math::sqrt(x*x + y*y + z*z + w*w)`. -/
def length (q : Quaternion) : ℚ :=
  EU.Math.sqrt (q.x * q.x + q.y * q.y + q.z * q.z + q.w * q.w)

/-- In-place `EU::Quaternion::normalize` as a state transformer: when
`length() == 0` the method returns early and the quaternion is left as it
was; otherwise each component is divided by the length. -/
def normalize (q : Quaternion) : Quaternion :=
  let len := q.length
  if len = 0 then q else ⟨q.x / len, q.y / len, q.z / len, q.w / len⟩

/-- `EU::Quaternion::normalized`: returns the identity quaternion
`(0,0,0,1)` when `length() == 0`, otherwise the componentwise division. -/
def normalized (q : Quaternion) : Quaternion :=
  let len := q.length
  if len = 0 then ⟨0, 0, 0, 1⟩ else ⟨q.x / len, q.y / len, q.z / len, q.w / len⟩

/-- `EU::Quaternion::lerp`: clamps `t` to `[0,1]`, linearly blends the four
components, then renormalizes via `normalized()`. -/
def lerp (a b : Quaternion) (t : ℚ) : Quaternion :=
  let t' := if t < 0 then 0 else if 1 < t then 1 else t
  normalized ⟨a.x + (b.x - a.x) * t', a.y + (b.y - a.y) * t',
    a.z + (b.z - a.z) * t', a.w + (b.w - a.w) * t'⟩

end Quaternion

/-- `EU::Matrix2x2` (Matrices/Matrix2x2.h): row-major 2×2 float matrix. -/
@[ext]
structure Matrix2x2 where
  m00 : ℚ
  m01 : ℚ
  m10 : ℚ
  m11 : ℚ
deriving DecidableEq

namespace Matrix2x2

/-- `EU::Matrix2x2::identity` and the default constructor. -/
def identity : Matrix2x2 := ⟨1, 0, 0, 1⟩

/-- `EU::Matrix2x2::determinant`: `m00 * m11 - m01 * m10`. -/
def determinant (a : Matrix2x2) : ℚ := a.m00 * a.m11 - a.m01 * a.m10

/-- `EU::Matrix2x2::transpose`. -/
def transpose (a : Matrix2x2) : Matrix2x2 := ⟨a.m00, a.m10, a.m01, a.m11⟩

/-- `EU::Matrix2x2::operator*(const Matrix2x2&)`: row-by-column product. -/
def mul (a b : Matrix2x2) : Matrix2x2 :=
  ⟨a.m00 * b.m00 + a.m01 * b.m10, a.m00 * b.m01 + a.m01 * b.m11,
   a.m10 * b.m00 + a.m11 * b.m10, a.m10 * b.m01 + a.m11 * b.m11⟩

/-- `EU::Matrix2x2::inverse`: returns the identity (default-constructed)
matrix when the determinant is exactly 0, otherwise the adjugate scaled by
`1 / det`. -/
def inverse (a : Matrix2x2) : Matrix2x2 :=
  let det := a.determinant
  if det = 0 then identity
  else
    let invDet := 1 / det
    ⟨a.m11 * invDet, -a.m01 * invDet, -a.m10 * invDet, a.m00 * invDet⟩

end Matrix2x2

/-- `EU::Matrix3x3` (Matrices/Matrix3x3.h): row-major 3×3 float matrix
(`float m[3][3]`), fields named by the row-major constructor order. -/
@[ext]
structure Matrix3x3 where
  m00 : ℚ
  m01 : ℚ
  m02 : ℚ
  m10 : ℚ
  m11 : ℚ
  m12 : ℚ
  m20 : ℚ
  m21 : ℚ
  m22 : ℚ
deriving DecidableEq

namespace Matrix3x3

/-- Array access `m[r][c]` with indices reduced mod 3 (the source only
indexes with values in `0..2`, produced by `% 3` arithmetic). -/
def get (a : Matrix3x3) (r c : Fin 3) : ℚ :=
  match r, c with
  | 0, 0 => a.m00
  | 0, 1 => a.m01
  | 0, 2 => a.m02
  | 1, 0 => a.m10
  | 1, 1 => a.m11
  | 1, 2 => a.m12
  | 2, 0 => a.m20
  | 2, 1 => a.m21
  | 2, 2 => a.m22

/-- `EU::Matrix3x3::identity`. -/
def identity : Matrix3x3 := ⟨1, 0, 0, 0, 1, 0, 0, 0, 1⟩

/-- `EU::Matrix3x3::determinant`: 3-term cofactor expansion along row 0. -/
def determinant (a : Matrix3x3) : ℚ :=
  a.m00 * (a.m11 * a.m22 - a.m12 * a.m21)
    - a.m01 * (a.m10 * a.m22 - a.m12 * a.m20)
    + a.m02 * (a.m10 * a.m21 - a.m11 * a.m20)

/-- `EU::Matrix3x3::transpose`. -/
def transpose (a : Matrix3x3) : Matrix3x3 :=
  ⟨a.m00, a.m10, a.m20, a.m01, a.m11, a.m21, a.m02, a.m12, a.m22⟩

/-- `EU::Matrix3x3::cofactor(row, col)`: cyclic-index 2×2 minor
(`r1 = (row+1)%3` etc. — `Fin 3` addition is exactly `% 3`), negated when
`(row + col) % 2 != 0`. -/
def cofactor (a : Matrix3x3) (row col : Fin 3) : ℚ :=
  let r1 := row + 1
  let r2 := row + 2
  let c1 := col + 1
  let c2 := col + 2
  let minor := a.get r1 c1 * a.get r2 c2 - a.get r1 c2 * a.get r2 c1
  if ((row : ℕ) + (col : ℕ)) % 2 = 0 then minor else -minor

/-- `EU::Matrix3x3::cofactorMatrix`. -/
def cofactorMatrix (a : Matrix3x3) : Matrix3x3 :=
  ⟨a.cofactor 0 0, a.cofactor 0 1, a.cofactor 0 2,
   a.cofactor 1 0, a.cofactor 1 1, a.cofactor 1 2,
   a.cofactor 2 0, a.cofactor 2 1, a.cofactor 2 2⟩

/-- `EU::Matrix3x3::adjugate`: transpose of the cofactor matrix. -/
def adjugate (a : Matrix3x3) : Matrix3x3 := a.cofactorMatrix.transpose

/-- `EU::Matrix3x3::operator*(float)`: componentwise scaling. -/
def smul (a : Matrix3x3) (s : ℚ) : Matrix3x3 :=
  ⟨a.m00 * s, a.m01 * s, a.m02 * s,
   a.m10 * s, a.m11 * s, a.m12 * s,
   a.m20 * s, a.m21 * s, a.m22 * s⟩

/-- `EU::Matrix3x3::inverse`: identity when the determinant is exactly 0,
otherwise `adjugate() * (1.f / det)`. -/
def inverse (a : Matrix3x3) : Matrix3x3 :=
  let det := a.determinant
  if det = 0 then identity else a.adjugate.smul (1 / det)

/-- `EU::Matrix3x3::operator*(const Matrix3x3&)`: row-by-column product
(the triple loop accumulating from `zero()`). -/
def mul (a b : Matrix3x3) : Matrix3x3 :=
  ⟨a.m00 * b.m00 + a.m01 * b.m10 + a.m02 * b.m20,
   a.m00 * b.m01 + a.m01 * b.m11 + a.m02 * b.m21,
   a.m00 * b.m02 + a.m01 * b.m12 + a.m02 * b.m22,
   a.m10 * b.m00 + a.m11 * b.m10 + a.m12 * b.m20,
   a.m10 * b.m01 + a.m11 * b.m11 + a.m12 * b.m21,
   a.m10 * b.m02 + a.m11 * b.m12 + a.m12 * b.m22,
   a.m20 * b.m00 + a.m21 * b.m10 + a.m22 * b.m20,
   a.m20 * b.m01 + a.m21 * b.m11 + a.m22 * b.m21,
   a.m20 * b.m02 + a.m21 * b.m12 + a.m22 * b.m22⟩

/-- `EU::Matrix3x3::operator*(const CVector3&)`: plain linear map. -/
def mulVec3 (a : Matrix3x3) (v : CVector3) : CVector3 :=
  ⟨a.m00 * v.x + a.m01 * v.y + a.m02 * v.z,
   a.m10 * v.x + a.m11 * v.y + a.m12 * v.z,
   a.m20 * v.x + a.m21 * v.y + a.m22 * v.z⟩

/-- `EU::Matrix3x3::operator*(const CVector2&)`: homogeneous product with
`(vec.x, vec.y, 1)`, then division of `x` and `y` by `w` guarded by
`w != 0`. -/
def mulVec2 (a : Matrix3x3) (v : CVector2) : CVector2 :=
  let x := a.m00 * v.x + a.m01 * v.y + a.m02 * 1
  let y := a.m10 * v.x + a.m11 * v.y + a.m12 * 1
  let w := a.m20 * v.x + a.m21 * v.y + a.m22 * 1
  if w ≠ 0 then ⟨x / w, y / w⟩ else ⟨x, y⟩

/-- Modelled from the spec: "Matrix3x3×Vector2 treats the vector as
homogeneous (x,y,1) and performs perspective divide by the computed w if
w≠0" — the homogeneous image of `(v.x, v.y, 1)` under the 3-vector linear
map, followed by the guarded perspective divide. -/
def mulVec2Spec (a : Matrix3x3) (v : CVector2) : CVector2 :=
  let r := a.mulVec3 ⟨v.x, v.y, 1⟩
  if r.z ≠ 0 then ⟨r.x / r.z, r.y / r.z⟩ else ⟨r.x, r.y⟩

end Matrix3x3

end EU

namespace EngineUtilities

/-- `EngineUtilities::Matrix4x4` (Matrix4x4.h): `float m[4][4]`,
row-major. -/
@[ext]
structure Matrix4x4 where
  m : Fin 4 → Fin 4 → ℚ

namespace Matrix4x4

/-- `EngineUtilities::Matrix4x4::transpose`:
`result.m[i][j] = m[j][i]` for all `i, j`. -/
def transpose (a : Matrix4x4) : Matrix4x4 := ⟨fun i j => a.m j i⟩

end Matrix4x4

end EngineUtilities

/-! ## Helper lemmas -/

/-- Ten-fold application of a function, written out. -/
theorem iterate_ten (f : ℚ → ℚ) (g : ℚ) :
    f^[10] g = f (f (f (f (f (f (f (f (f (f g))))))))) := rfl

namespace EU.Math

theorem newtonStep_pos {x g : ℚ} (hx : 0 < x) (hg : 0 < g) :
    0 < newtonStep x g := by
  have h1 : 0 < x / g := div_pos hx hg
  unfold newtonStep
  nlinarith

theorem newtonStep_sq_ge {x g : ℚ} (hx : 0 < x) (hg : 0 < g) :
    x ≤ (newtonStep x g) ^ 2 := by
  have hg' : g ≠ 0 := ne_of_gt hg
  have key : (newtonStep x g) ^ 2 - x = ((g * g - x) / (2 * g)) ^ 2 := by
    field_simp [newtonStep]
    ring
  nlinarith [sq_nonneg ((g * g - x) / (2 * g))]

theorem newtonStep_half_le {x g : ℚ} (hx : 0 < x) (hg : 0 < g) :
    g / 2 ≤ newtonStep x g := by
  have h1 : 0 < x / g := div_pos hx hg
  unfold newtonStep
  nlinarith

theorem newtonStep_le {x g m : ℚ} (hx : 0 ≤ x) (hm : 0 < m) (hmg : m ≤ g) :
    newtonStep x g ≤ g / 2 + x / (2 * m) := by
  have hg : 0 < g := lt_of_lt_of_le hm hmg
  have h1 : x / g ≤ x / m := by gcongr
  have h2 : newtonStep x g = g / 2 + (x / g) / 2 := by
    unfold newtonStep; ring
  rw [h2]
  have h3 : x / m / 2 = x / (2 * m) := by ring
  linarith

theorem iter_pos {x : ℚ} (hx : 0 < x) :
    ∀ (n : ℕ) (g : ℚ), 0 < g → 0 < (newtonStep x)^[n] g := by
  intro n
  induction n with
  | zero => intro g hg; simpa using hg
  | succ n ih =>
    intro g hg
    rw [Function.iterate_succ_apply]
    exact ih _ (newtonStep_pos hx hg)

theorem iter_lb {x : ℚ} (hx : 0 < x) :
    ∀ (n : ℕ) (g : ℚ), 0 < g → g / 2 ^ n ≤ (newtonStep x)^[n] g := by
  intro n
  induction n with
  | zero => intro g hg; simp
  | succ n ih =>
    intro g hg
    rw [Function.iterate_succ_apply]
    have h1 := ih _ (newtonStep_pos hx hg)
    have h2 : g / 2 ^ (n + 1) ≤ newtonStep x g / 2 ^ n := by
      have := newtonStep_half_le hx hg
      have hp : (0 : ℚ) < 2 ^ n := by positivity
      rw [pow_succ]
      rw [div_le_div_iff (by positivity) hp]
      nlinarith
    linarith

theorem iter_sq_ge {x : ℚ} (hx : 0 < x) :
    ∀ (n : ℕ) (g : ℚ), 0 < g → x ≤ g ^ 2 → x ≤ ((newtonStep x)^[n] g) ^ 2 := by
  intro n
  induction n with
  | zero => intro g hg h; simpa using h
  | succ n ih =>
    intro g hg h
    rw [Function.iterate_succ_apply]
    exact ih _ (newtonStep_pos hx hg) (newtonStep_sq_ge hx hg)

theorem le_of_sq_le_sq {m g : ℚ} (hm : 0 < m) (hg : 0 < g)
    (h : m ^ 2 ≤ g ^ 2) : m ≤ g := by
  by_contra hlt
  push_neg at hlt
  nlinarith

theorem iter_ub {x m : ℚ} (hx : 0 < x) (hm : 0 < m) (hm2 : m ^ 2 ≤ x) :
    ∀ (n : ℕ) (g : ℚ), 0 < g → x ≤ g ^ 2 →
      (newtonStep x)^[n] g ≤ g / 2 ^ n + (x / m) * (1 - 1 / 2 ^ n) := by
  intro n
  induction n with
  | zero => intro g hg hge; simp
  | succ n ih =>
    intro g hg hge
    have hmg : m ≤ g := le_of_sq_le_sq hm hg (le_trans hm2 hge)
    rw [Function.iterate_succ_apply]
    have h1 := ih _ (newtonStep_pos hx hg) (newtonStep_sq_ge hx hg)
    have h2 : newtonStep x g ≤ g / 2 + x / (2 * m) := newtonStep_le (le_of_lt hx) hm hmg
    have hp : (0 : ℚ) < 2 ^ n := by positivity
    have h3 : newtonStep x g / 2 ^ n ≤ (g / 2 + x / (2 * m)) / 2 ^ n := by gcongr
    have h4 : (g / 2 + x / (2 * m)) / 2 ^ n + (x / m) * (1 - 1 / 2 ^ n)
        = g / 2 ^ (n + 1) + (x / m) * (1 - 1 / 2 ^ (n + 1)) := by
      field_simp
      ring
    linarith

theorem iter_ub' {x m : ℚ} (hx : 0 < x) (hm : 0 < m) (hm2 : m ^ 2 ≤ x)
    (n : ℕ) (g : ℚ) (hg : 0 < g) (hge : x ≤ g ^ 2) :
    (newtonStep x)^[n] g ≤ g / 2 ^ n + x / m := by
  have h1 := iter_ub hx hm hm2 n g hg hge
  have hp : (0 : ℚ) < 2 ^ n := by positivity
  have h2 : (x / m) * (1 - 1 / 2 ^ n) ≤ x / m := by
    have hxm : 0 ≤ x / m := le_of_lt (div_pos hx hm)
    nlinarith [div_pos (show (0:ℚ) < 1 by norm_num) hp]
  linarith

theorem step_err_le {x g : ℚ} (hx : 0 < x) (hg : 0 < g) (hge : x ≤ g ^ 2) :
    (newtonStep x g) ^ 2 - x ≤ (g ^ 2 - x) ^ 2 / (4 * x) := by
  have hg' : g ≠ 0 := ne_of_gt hg
  have key : (newtonStep x g) ^ 2 - x = (g ^ 2 - x) ^ 2 / (4 * g ^ 2) := by
    field_simp [newtonStep]
    ring
  rw [key]
  gcongr

theorem step_err_half {x g b : ℚ} (hx : 1 / 2 ≤ x) (hg : 0 < g)
    (hge : x ≤ g ^ 2) (hb : g ^ 2 - x ≤ b) :
    (newtonStep x g) ^ 2 - x ≤ b ^ 2 / 2 := by
  have hx0 : 0 < x := by linarith
  have h1 := step_err_le hx0 hg hge
  have he0 : 0 ≤ g ^ 2 - x := by linarith
  have h2 : (g ^ 2 - x) ^ 2 ≤ b ^ 2 := by nlinarith
  have h3 : (g ^ 2 - x) ^ 2 / (4 * x) ≤ b ^ 2 / (4 * x) := by gcongr
  have h4 : b ^ 2 / (4 * x) ≤ b ^ 2 / 2 := by
    gcongr
    linarith
  linarith

theorem iter_err_lin {x : ℚ} (hx : 1 / 2 ≤ x) :
    ∀ (n : ℕ) (g b : ℚ), 0 < g → x ≤ g ^ 2 → g ^ 2 - x ≤ b → b ≤ 1 →
      ((newtonStep x)^[n] g) ^ 2 - x ≤ b / 2 ^ n := by
  intro n
  induction n with
  | zero => intro g b hg hge hb hb1; simpa using hb
  | succ n ih =>
    intro g b hg hge hb hb1
    have hx0 : 0 < x := by linarith
    have hb0 : 0 ≤ b := le_trans (by nlinarith) hb
    have h1 : (newtonStep x g) ^ 2 - x ≤ b / 2 := by
      have := step_err_half hx hg hge hb
      nlinarith
    rw [Function.iterate_succ_apply]
    have h2 := ih (newtonStep x g) (b / 2) (newtonStep_pos hx0 hg)
      (newtonStep_sq_ge hx0 hg) h1 (by linarith)
    have h3 : b / 2 / 2 ^ n = b / 2 ^ (n + 1) := by
      rw [div_div, ← pow_succ']
    linarith

theorem piLit_pos : (0 : ℚ) < piLit := by norm_num [piLit]

theorem reduceDown_le (x : ℚ) : reduceDown x ≤ piLit := by
  induction x using reduceDown.induct with
  | case1 x h ih => rw [reduceDown]; simp only [if_pos h]; exact ih
  | case2 x h => rw [reduceDown]; simp only [if_neg h]; exact not_lt.mp h

theorem reduceUp_bounds (x : ℚ) (hx : x ≤ piLit) :
    -piLit ≤ reduceUp x ∧ reduceUp x ≤ piLit := by
  induction x using reduceUp.induct with
  | case1 x h ih =>
    rw [reduceUp]; simp only [if_pos h]
    exact ih (by linarith [piLit_pos])
  | case2 x h =>
    rw [reduceUp]; simp only [if_neg h]
    exact ⟨not_lt.mp h, hx⟩

theorem reduceDown_eq_sub_steps (x : ℚ) :
    reduceDown x = x - 2 * piLit * (reduceDownSteps x : ℚ) := by
  induction x using reduceDown.induct with
  | case1 x h ih =>
    rw [reduceDown, reduceDownSteps]
    simp only [if_pos h]
    rw [ih]
    push_cast
    ring
  | case2 x h =>
    rw [reduceDown, reduceDownSteps]
    simp only [if_neg h]
    norm_num

theorem reduceDownSteps_on (k : ℕ) :
    reduceDownSteps (piLit + 1 + 2 * piLit * (k : ℚ)) = k + 1 := by
  induction k with
  | zero =>
    rw [reduceDownSteps]
    rw [if_pos (by norm_num [piLit])]
    norm_num
    rw [reduceDownSteps]
    rw [if_neg (by norm_num [piLit])]
  | succ k ih =>
    rw [reduceDownSteps]
    rw [if_pos (by push_cast; nlinarith [piLit_pos])]
    have harg : piLit + 1 + 2 * piLit * ((k : ℚ) + 1) - 2 * piLit
        = piLit + 1 + 2 * piLit * (k : ℚ) := by ring
    push_cast
    rw [harg, ih]

end EU.Math

/-! ## Claim theorems -/

/-- C1 (counterexample): `Quaternion::lerp(a, a, t)` is *not* `a` for every
quaternion `a` — at `a = (0,0,0,2)`, `t = 1/2` the blend reproduces `a`
exactly but the final renormalization rescales it to `(0,0,0,1)`. -/
theorem c1_counterexample :
    EU.Quaternion.lerp ⟨0, 0, 0, 2⟩ ⟨0, 0, 0, 2⟩ (1 / 2)
      ≠ (⟨0, 0, 0, 2⟩ : EU.Quaternion) := by
  norm_num [EU.Quaternion.lerp, EU.Quaternion.normalized, EU.Quaternion.length,
    EU.Math.sqrt, iterate_ten, EU.Math.newtonStep]

/-- C1 (amended): for every quaternion `a` and every `t`,
`Quaternion::lerp(a, a, t)` returns `a.normalized()` — the linear blend of
identical endpoints reproduces `a` exactly and the result is then
renormalized, so it equals `a` itself only up to that renormalization. -/
theorem c1_lerp_same_endpoints (a : EU.Quaternion) (t : ℚ) :
    EU.Quaternion.lerp a a t = a.normalized := by
  simp only [EU.Quaternion.lerp]
  congr 1
  ext <;> ring

/-- C2 (counterexample): the iteration count of the `while (x > π)` range
reduction loop inside `EU::Math::sin`/`cos` is not bounded by any fixed
constant over all inputs. -/
theorem c2_counterexample :
    ¬ ∃ N : ℕ, ∀ x : ℚ, EU.Math.reduceDownSteps x ≤ N := by
  rintro ⟨N, hN⟩
  have h := hN (EU.Math.piLit + 1 + 2 * EU.Math.piLit * (N : ℚ))
  rw [EU.Math.reduceDownSteps_on N] at h
  omega

/-- C2 (amended): over the exact-rational model every `sin`/`cos` call
terminates — the range reduction performed by both functions always lands
in `[-3.14159265, 3.14159265]`, and the first loop runs exactly
`reduceDownSteps x` times (subtracting `2π` each time) — but that count
grows with `x` instead of being a fixed constant, and under IEEE float
semantics the subtraction makes no progress for huge or infinite `x`. -/
theorem c2_reduction_in_range (x : ℚ) :
    (-EU.Math.piLit ≤ EU.Math.reduceAngle x ∧
      EU.Math.reduceAngle x ≤ EU.Math.piLit) ∧
    EU.Math.reduceDown x
      = x - 2 * EU.Math.piLit * (EU.Math.reduceDownSteps x : ℚ) := by
  obtain ⟨h1, h2⟩ := EU.Math.reduceUp_bounds _ (EU.Math.reduceDown_le x)
  exact ⟨⟨h1, h2⟩, EU.Math.reduceDown_eq_sub_steps x⟩

/-- C4: for every `Matrix2x2` and `Matrix3x3` whose determinant is exactly
0, `inverse()` returns the identity matrix (silent fallback; the receiver,
passed by value here, is not modified). -/
theorem c4_singular_inverse_identity (A : EU.Matrix2x2) (B : EU.Matrix3x3)
    (hA : A.determinant = 0) (hB : B.determinant = 0) :
    A.inverse = EU.Matrix2x2.identity ∧ B.inverse = EU.Matrix3x3.identity := by
  constructor
  · simp [EU.Matrix2x2.inverse, hA]
  · simp [EU.Matrix3x3.inverse, hB]

/-- C4 (witness): concrete singular matrices. -/
theorem c4_witness :
    EU.Matrix2x2.determinant ⟨1, 2, 2, 4⟩ = 0 ∧
    EU.Matrix3x3.determinant ⟨1, 1, 1, 1, 1, 1, 1, 1, 1⟩ = 0 ∧
    EU.Matrix2x2.inverse ⟨1, 2, 2, 4⟩ = EU.Matrix2x2.identity ∧
    EU.Matrix3x3.inverse ⟨1, 1, 1, 1, 1, 1, 1, 1, 1⟩ = EU.Matrix3x3.identity := by
  have h2 : EU.Matrix2x2.determinant ⟨1, 2, 2, 4⟩ = 0 := by
    norm_num [EU.Matrix2x2.determinant]
  have h3 : EU.Matrix3x3.determinant ⟨1, 1, 1, 1, 1, 1, 1, 1, 1⟩ = 0 := by
    norm_num [EU.Matrix3x3.determinant]
  exact ⟨h2, h3, (c4_singular_inverse_identity _ _ h2 h3).1,
    (c4_singular_inverse_identity _ _ h2 h3).2⟩

/-- C5 (code bug): at the invertible matrix
`M = (1,2,3; 4,5,6; 7,8,10)` (determinant −3) the product
`M * M.inverse()` is not the identity — its (0,0) entry is `11/3` — because
`Matrix3x3::cofactor` applies a `(row+col)`-parity sign flip to a
cyclic-index minor that is already the signed cofactor. -/
theorem c5_inverse3_bug :
    EU.Matrix3x3.determinant ⟨1, 2, 3, 4, 5, 6, 7, 8, 10⟩ ≠ 0 ∧
    (EU.Matrix3x3.mul ⟨1, 2, 3, 4, 5, 6, 7, 8, 10⟩
        (EU.Matrix3x3.inverse ⟨1, 2, 3, 4, 5, 6, 7, 8, 10⟩)).m00 = 11 / 3 ∧
    EU.Matrix3x3.mul ⟨1, 2, 3, 4, 5, 6, 7, 8, 10⟩
        (EU.Matrix3x3.inverse ⟨1, 2, 3, 4, 5, 6, 7, 8, 10⟩)
      ≠ EU.Matrix3x3.identity := by
  refine ⟨by norm_num [EU.Matrix3x3.determinant], ?_, ?_⟩
  · norm_num [EU.Matrix3x3.mul, EU.Matrix3x3.inverse, EU.Matrix3x3.determinant,
      EU.Matrix3x3.adjugate, EU.Matrix3x3.cofactorMatrix, EU.Matrix3x3.cofactor,
      EU.Matrix3x3.get, EU.Matrix3x3.smul, EU.Matrix3x3.transpose]
  · norm_num [EU.Matrix3x3.mul, EU.Matrix3x3.inverse, EU.Matrix3x3.determinant,
      EU.Matrix3x3.adjugate, EU.Matrix3x3.cofactorMatrix, EU.Matrix3x3.cofactor,
      EU.Matrix3x3.get, EU.Matrix3x3.smul, EU.Matrix3x3.transpose,
      EU.Matrix3x3.identity]

/-- The 2×2 half of the same spec property does hold: for every
`Matrix2x2` with non-zero determinant, `M * M.inverse()` is exactly the
identity in the exact-rational model. -/
theorem matrix2x2_mul_inverse (a : EU.Matrix2x2) (h : a.determinant ≠ 0) :
    a.mul a.inverse = EU.Matrix2x2.identity := by
  have hd : a.m00 * a.m11 - a.m01 * a.m10 ≠ 0 := h
  ext <;>
  · simp only [EU.Matrix2x2.mul, EU.Matrix2x2.inverse, EU.Matrix2x2.determinant,
      if_neg hd, EU.Matrix2x2.identity]
    field_simp
    ring

/-- C6 (counterexample): the in-place `normalize()` on the zero quaternion
(the only quaternion of magnitude 0) returns early and leaves the value at
`(0,0,0,0)`, which is not the identity quaternion. -/
theorem c6_counterexample :
    EU.Quaternion.normalize ⟨0, 0, 0, 0⟩ ≠ EU.Quaternion.identity := by
  norm_num [EU.Quaternion.normalize, EU.Quaternion.length, EU.Math.sqrt,
    EU.Quaternion.identity]

/-- C6 (amended): for every quaternion of magnitude exactly 0,
`normalized()` returns the identity quaternion `(0,0,0,1)`, while the
in-place `normalize()` returns with the quaternion unchanged. -/
theorem c6_zero_magnitude (q : EU.Quaternion) (h : q.length = 0) :
    q.normalized = EU.Quaternion.identity ∧ q.normalize = q := by
  constructor
  · simp [EU.Quaternion.normalized, h, EU.Quaternion.identity]
  · simp [EU.Quaternion.normalize, h]

/-- C6 (witness): the zero quaternion. -/
theorem c6_witness :
    EU.Quaternion.length ⟨0, 0, 0, 0⟩ = 0 ∧
    EU.Quaternion.normalized ⟨0, 0, 0, 0⟩ = EU.Quaternion.identity ∧
    EU.Quaternion.normalize ⟨0, 0, 0, 0⟩ = (⟨0, 0, 0, 0⟩ : EU.Quaternion) := by
  have h0 : EU.Quaternion.length ⟨0, 0, 0, 0⟩ = 0 := by
    norm_num [EU.Quaternion.length, EU.Math.sqrt]
  exact ⟨h0, (c6_zero_magnitude _ h0).1, (c6_zero_magnitude _ h0).2⟩

/-- C7: `transpose().transpose()` is the exact identity on `EU::Matrix2x2`,
`EU::Matrix3x3` and `EngineUtilities::Matrix4x4`. -/
theorem c7_transpose_involution (A : EU.Matrix2x2) (B : EU.Matrix3x3)
    (C : EngineUtilities.Matrix4x4) :
    A.transpose.transpose = A ∧ B.transpose.transpose = B ∧
      C.transpose.transpose = C :=
  ⟨rfl, rfl, rfl⟩

/-- C8: for every `x ≤ 0`, `EU::Math::sqrt(x)` and `EU::Math::log(x)`
return the sentinel 0. -/
theorem c8_nonpos_sentinel (x : ℚ) (h : x ≤ 0) :
    EU.Math.sqrt x = 0 ∧ EU.Math.log x = 0 := by
  constructor
  · simp [EU.Math.sqrt, h]
  · simp [EU.Math.log, h]

/-- C8 (witness): `x = -1`. -/
theorem c8_witness :
    ((-1 : ℚ) ≤ 0) ∧ EU.Math.sqrt (-1) = 0 ∧ EU.Math.log (-1) = 0 :=
  ⟨by norm_num, (c8_nonpos_sentinel (-1) (by norm_num)).1,
    (c8_nonpos_sentinel (-1) (by norm_num)).2⟩

/-- C9: `Matrix3x3 * CVector2` computes the homogeneous product of the
matrix with `(v.x, v.y, 1)` and divides the resulting `x`, `y` by the
computed `w` exactly when `w ≠ 0` (the operation is total). -/
theorem c9_mulVec2_homogeneous (a : EU.Matrix3x3) (v : CVector2) :
    a.mulVec2 v = EU.Matrix3x3.mulVec2Spec a v := rfl

/-- C10: `EU::Math::power(x, n)` returns exactly 1 for every `n ≤ 0` —
the loop body never runs. -/
theorem c10_power_nonpos (x : ℚ) (n : ℤ) (h : n ≤ 0) :
    EU.Math.power x n = 1 := by
  unfold EU.Math.power
  rw [Int.toNat_of_nonpos h]
  rfl

/-- C10 (witness): `power(5, -3) = 1` and `power(0, 0) = 1`. -/
theorem c10_witness :
    ((-3 : ℤ) ≤ 0) ∧ EU.Math.power 5 (-3) = 1 ∧
    ((0 : ℤ) ≤ 0) ∧ EU.Math.power 0 0 = 1 :=
  ⟨by norm_num, c10_power_nonpos 5 (-3) (by norm_num),
    le_refl 0, c10_power_nonpos 0 0 (le_refl 0)⟩

/-- C3 (counterexample): the vector `(32768, 0, 0)` has positive computed
length, yet `v.normalized().length()` is at most `1/14` — nowhere near 1 —
because ten Newton iterations started from `x/2` do not converge for a
squared length of `2^30`. -/
theorem c3_counterexample :
    0 < CVector3.length ⟨32768, 0, 0⟩ ∧
    ¬ |CVector3.length (CVector3.normalized ⟨32768, 0, 0⟩) - 1|
        ≤ 1 / 100000 := by
  have hXpos : (0 : ℚ) < 2 ^ 30 := by norm_num
  have hg0 : (0 : ℚ) < 2 ^ 30 / 2 := by norm_num
  have hge0 : (2 ^ 30 : ℚ) ≤ (2 ^ 30 / 2) ^ 2 := by norm_num
  set s : ℚ := (EU.Math.newtonStep (2 ^ 30))^[10] (2 ^ 30 / 2) with hs_def
  have hs_lb : (2 ^ 30 / 2) / 2 ^ 10 ≤ s := EU.Math.iter_lb hXpos 10 _ hg0
  have hs_ub : s ≤ (2 ^ 30 / 2) / 2 ^ 10 + 2 ^ 30 / 2 ^ 15 :=
    EU.Math.iter_ub' hXpos (by norm_num : (0 : ℚ) < 2 ^ 15) (by norm_num)
      10 _ hg0 hge0
  have hs_lb' : (524288 : ℚ) ≤ s := by
    have : ((2 : ℚ) ^ 30 / 2) / 2 ^ 10 = 524288 := by norm_num
    linarith [this ▸ hs_lb]
  have hs_ub' : s ≤ 557056 := by
    have : ((2 : ℚ) ^ 30 / 2) / 2 ^ 10 + 2 ^ 30 / 2 ^ 15 = 557056 := by norm_num
    linarith [this ▸ hs_ub]
  have hs_pos : (0 : ℚ) < s := by linarith
  have hs_ne : s ≠ 0 := ne_of_gt hs_pos
  have hlen : CVector3.length ⟨32768, 0, 0⟩ = s := by
    show EU.Math.sqrt ((32768 : ℚ) * 32768 + 0 * 0 + 0 * 0) = s
    rw [show (32768 : ℚ) * 32768 + 0 * 0 + 0 * 0 = 2 ^ 30 by norm_num]
    rw [EU.Math.sqrt, if_neg (by norm_num)]
  refine ⟨by rw [hlen]; exact hs_pos, ?_⟩
  have hnorm : CVector3.normalized ⟨32768, 0, 0⟩ = ⟨32768 / s, 0, 0⟩ := by
    simp only [CVector3.normalized, hlen, if_neg hs_ne, zero_div]
  set u : ℚ := 32768 / s with hu_def
  have hu_lb : (1 : ℚ) / 17 ≤ u := by
    rw [hu_def, le_div_iff hs_pos]
    linarith
  have hu_ub : u ≤ 1 / 16 := by
    rw [hu_def, div_le_div_iff hs_pos (by norm_num : (0 : ℚ) < 16)]
    linarith
  have hu_pos : 0 < u := by linarith
  set y : ℚ := u * u with hy_def
  have hy_lb : (1 : ℚ) / 289 ≤ y := by rw [hy_def]; nlinarith
  have hy_ub : y ≤ 1 / 256 := by rw [hy_def]; nlinarith
  have hy_pos : 0 < y := by nlinarith
  have hlen2 : CVector3.length ⟨32768 / s, 0, 0⟩
      = (EU.Math.newtonStep y)^[10] (y / 2) := by
    show EU.Math.sqrt (32768 / s * (32768 / s) + 0 * 0 + 0 * 0) = _
    rw [show (32768 / s * (32768 / s) + 0 * 0 + 0 * 0 : ℚ) = y by
      rw [hy_def, hu_def]; ring]
    rw [EU.Math.sqrt, if_neg (by linarith)]
  have hpeel : (EU.Math.newtonStep y)^[10] (y / 2)
      = (EU.Math.newtonStep y)^[9] (EU.Math.newtonStep y (y / 2)) := by
    rw [show (10 : ℕ) = 9 + 1 from rfl, Function.iterate_succ_apply]
  have hg1 : EU.Math.newtonStep y (y / 2) = y / 4 + 1 := by
    rw [EU.Math.newtonStep]
    field_simp
    ring
  have hg1_pos : (0 : ℚ) < y / 4 + 1 := by linarith
  have hg1_ge : y ≤ (y / 4 + 1) ^ 2 := by nlinarith
  have ht_ub : (EU.Math.newtonStep y)^[9] (y / 4 + 1)
      ≤ (y / 4 + 1) / 2 ^ 9 + y / (1 / 17) :=
    EU.Math.iter_ub' hy_pos (by norm_num) (by nlinarith) 9 _ hg1_pos hg1_ge
  have ht_ub' : (EU.Math.newtonStep y)^[9] (y / 4 + 1) ≤ 1 / 14 := by
    have h17 : y / (1 / 17 : ℚ) = 17 * y := by ring
    have h512 : ((y / 4 + 1) / 2 ^ 9 : ℚ) = (y / 4 + 1) / 512 := by norm_num
    rw [h17, h512] at ht_ub
    linarith
  rw [hnorm, hlen2, hpeel, hg1]
  intro habs
  obtain ⟨h1, h2⟩ := abs_le.mp habs
  linarith

/-- Five-fold application of a function, written out. -/
theorem iterate_five (f : ℚ → ℚ) (g : ℚ) :
    f^[5] g = f (f (f (f (f g)))) := rfl

namespace EU.Math

/-- On `[1/2, 8]` the ten Newton iterations of `EU::Math::sqrt` do
converge: the result is positive and its square overshoots the argument by
at most `2^-20`. -/
theorem sqrt_close {L : ℚ} (hlo : 1 / 2 ≤ L) (hhi : L ≤ 8) :
    0 < sqrt L ∧ L ≤ (sqrt L) ^ 2 ∧ (sqrt L) ^ 2 ≤ L + 1 / 1048576 := by
  have hL0 : (0 : ℚ) < L := by linarith
  rw [sqrt, if_neg (by linarith)]
  set z1 : ℚ := L / 4 + 1 with hz1_def
  have hg1 : newtonStep L (L / 2) = z1 := by
    rw [newtonStep, hz1_def]
    field_simp
    ring
  set z2 := newtonStep L z1 with hz2
  set z3 := newtonStep L z2 with hz3
  set z4 := newtonStep L z3 with hz4
  set z5 := newtonStep L z4 with hz5
  have hiter : (newtonStep L)^[10] (L / 2) = (newtonStep L)^[5] z5 := by
    rw [show (10 : ℕ) = 5 + 5 from rfl, Function.iterate_add_apply]
    have h5 : (newtonStep L)^[5] (L / 2) = z5 := by
      rw [iterate_five, hg1, ← hz2, ← hz3, ← hz4, ← hz5]
    rw [h5]
  rw [hiter]
  have hz1_pos : 0 < z1 := by rw [hz1_def]; linarith
  have hz1_ge : L ≤ z1 ^ 2 := by
    rw [hz1_def]
    nlinarith [sq_nonneg (L / 4 - 1)]
  have he1 : z1 ^ 2 - L ≤ 1 := by
    rw [hz1_def]
    nlinarith [mul_nonneg hL0.le (by linarith : (0 : ℚ) ≤ 8 - L)]
  have hz2_pos : 0 < z2 := by rw [hz2]; exact newtonStep_pos hL0 hz1_pos
  have hz2_ge : L ≤ z2 ^ 2 := by rw [hz2]; exact newtonStep_sq_ge hL0 hz1_pos
  have he2 : z2 ^ 2 - L ≤ 1 / 2 := by
    have h := step_err_half hlo hz1_pos hz1_ge he1
    rw [← hz2] at h
    norm_num at h
    linarith
  have hz3_pos : 0 < z3 := by rw [hz3]; exact newtonStep_pos hL0 hz2_pos
  have hz3_ge : L ≤ z3 ^ 2 := by rw [hz3]; exact newtonStep_sq_ge hL0 hz2_pos
  have he3 : z3 ^ 2 - L ≤ 1 / 8 := by
    have h := step_err_half hlo hz2_pos hz2_ge he2
    rw [← hz3] at h
    norm_num at h
    linarith
  have hz4_pos : 0 < z4 := by rw [hz4]; exact newtonStep_pos hL0 hz3_pos
  have hz4_ge : L ≤ z4 ^ 2 := by rw [hz4]; exact newtonStep_sq_ge hL0 hz3_pos
  have he4 : z4 ^ 2 - L ≤ 1 / 128 := by
    have h := step_err_half hlo hz3_pos hz3_ge he3
    rw [← hz4] at h
    norm_num at h
    linarith
  have hz5_pos : 0 < z5 := by rw [hz5]; exact newtonStep_pos hL0 hz4_pos
  have hz5_ge : L ≤ z5 ^ 2 := by rw [hz5]; exact newtonStep_sq_ge hL0 hz4_pos
  have he5 : z5 ^ 2 - L ≤ 1 / 32768 := by
    have h := step_err_half hlo hz4_pos hz4_ge he4
    rw [← hz5] at h
    norm_num at h
    linarith
  have hfin_pos := iter_pos hL0 5 z5 hz5_pos
  have hfin_ge := iter_sq_ge hL0 5 z5 hz5_pos hz5_ge
  have hfin_ub := iter_err_lin hlo 5 z5 (1 / 32768) hz5_pos hz5_ge he5
    (by norm_num)
  refine ⟨hfin_pos, hfin_ge, ?_⟩
  have hconv : ((1 : ℚ) / 32768) / 2 ^ 5 = 1 / 1048576 := by norm_num
  rw [hconv] at hfin_ub
  linarith

end EU.Math

/-- C3 (amended): the zero vector normalizes to exactly the zero vector;
and whenever the squared length lies in `[1, 8]` — a range on which the
fixed 10 Newton iterations converge — `v.normalized().length()` is within
`1e-5` of 1.  (By `c3_counterexample` this does *not* extend to every
vector of positive length.) -/
theorem c3_normalized_length :
    CVector3.normalized ⟨0, 0, 0⟩ = (⟨0, 0, 0⟩ : CVector3) ∧
    ∀ v : CVector3, 1 ≤ v.lengthSquared → v.lengthSquared ≤ 8 →
      |CVector3.length (CVector3.normalized v) - 1| ≤ 1 / 100000 := by
  constructor
  · norm_num [CVector3.normalized, CVector3.length, EU.Math.sqrt]
  intro v h1 h8
  set L := v.lengthSquared with hL_def
  have hL' : v.x * v.x + v.y * v.y + v.z * v.z = L := rfl
  have hlen : v.length = EU.Math.sqrt L := by
    simp only [CVector3.length, hL']
  obtain ⟨hspos, hsge, hsle⟩ := @EU.Math.sqrt_close L (by linarith) h8
  set s := EU.Math.sqrt L with hs
  have hs1 : 1 ≤ s := by nlinarith
  have hsne : s ≠ 0 := ne_of_gt hspos
  have hnorm : v.normalized = ⟨v.x / s, v.y / s, v.z / s⟩ := by
    simp only [CVector3.normalized, hlen, if_neg hsne]
  have hs2pos : 0 < s ^ 2 := by positivity
  have hMeq : v.x / s * (v.x / s) + v.y / s * (v.y / s) + v.z / s * (v.z / s)
      = L / s ^ 2 := by
    have hstep : v.x / s * (v.x / s) + v.y / s * (v.y / s) + v.z / s * (v.z / s)
        = (v.x * v.x + v.y * v.y + v.z * v.z) / s ^ 2 := by
      rw [div_mul_div_comm, div_mul_div_comm, div_mul_div_comm,
        div_add_div_same, div_add_div_same, sq]
    rw [hstep, hL']
  set M := L / s ^ 2 with hM_def
  have hM_ub : M ≤ 1 := by
    rw [hM_def, div_le_one hs2pos]
    linarith
  have hM_lb : 1 - 1 / 1048576 ≤ M := by
    rw [hM_def, le_div_iff hs2pos]
    nlinarith [hsle, hs1]
  obtain ⟨htpos, htge, htle⟩ := @EU.Math.sqrt_close M (by linarith) (by linarith)
  set t := EU.Math.sqrt M with ht
  have hlen2 : CVector3.length (CVector3.normalized v) = t := by
    rw [hnorm]
    show EU.Math.sqrt
      (v.x / s * (v.x / s) + v.y / s * (v.y / s) + v.z / s * (v.z / s)) = t
    rw [hMeq]
  rw [hlen2, abs_le]
  have ht2_lb : 1 - 1 / 1048576 ≤ t ^ 2 := by linarith
  have ht2_ub : t ^ 2 ≤ 1 + 1 / 1048576 := by linarith
  constructor
  · rcases le_or_lt 1 t with hc | hc
    · linarith
    · have hsq : t ^ 2 ≤ t := by nlinarith
      linarith
  · rcases le_or_lt t 1 with hc | hc
    · linarith
    · have hsq : t ≤ t ^ 2 := by nlinarith
      linarith

/-- C3 (witness): the vector `(2, 0, 0)` satisfies the range hypothesis and
its normalization has length within `1e-5` of 1. -/
theorem c3_witness :
    1 ≤ CVector3.lengthSquared ⟨2, 0, 0⟩ ∧
    CVector3.lengthSquared ⟨2, 0, 0⟩ ≤ 8 ∧
    |CVector3.length (CVector3.normalized ⟨2, 0, 0⟩) - 1| ≤ 1 / 100000 := by
  have h1 : 1 ≤ CVector3.lengthSquared ⟨2, 0, 0⟩ := by
    norm_num [CVector3.lengthSquared]
  have h8 : CVector3.lengthSquared ⟨2, 0, 0⟩ ≤ 8 := by
    norm_num [CVector3.lengthSquared]
  exact ⟨h1, h8, c3_normalized_length.2 ⟨2, 0, 0⟩ h1 h8⟩
